import Mathlib

/-!
Verification of the scheduling engine in `src/API/scheduling.py`.

The Python module implements four CPU-scheduling policies over a batch of
processes, each process a 4-tuple `(pid, arrival, burst, priority)`:

* `fcfs`                — first come first served (sorts in place by arrival);
* `sjf`                 — non-preemptive shortest job first;
* `priority_scheduling` — non-preemptive priority (smallest value wins);
* `round_robin`         — preemptive round robin with a quantum.

Every definition below is a direct shallow embedding of the corresponding
Python code.  Python integers become `Int`; the unbounded `while` loops of
`sjf`, `priority_scheduling` and `round_robin` become fuel-indexed loops
returning `Option`/a result type, with `none` (or `.timeout`) modelling a
computation that has not finished within the given number of iterations.
-/

/-- One process record: the Python 4-element list `[pid, at, bt, pri]`
unpacked by `pid, at, bt, pri = process`. -/
structure Process where
  pid : Int
  arrival : Int
  burst : Int
  priority : Int
deriving DecidableEq, Repr

/-- The dictionary `{'finish': finish, 'order': order}` returned by every
policy endpoint. -/
structure ScheduleResult where
  finish : List Int
  order : List Int
deriving DecidableEq, Repr

/-- The effect of Python's stable `processes.sort(key=lambda x: x[1])` /
`sorted(processes, key=lambda x: x[1])`: a stable sort by arrival time.
Stable sorts by a fixed key agree extensionally, so the stable
`List.insertionSort` has exactly the semantics of Python's stable sort. -/
def sortByArrival (ps : List Process) : List Process :=
  List.insertionSort (fun a b => a.arrival ≤ b.arrival) ps

/-- Accumulator of the `for` loop in `fcfs`: `(time, start, finish, order)`. -/
structure FcfsAcc where
  time : Int
  start : List Int
  finish : List Int
  order : List Int
deriving DecidableEq, Repr

/-- Body of the `for process in processes` loop of `fcfs`. -/
def fcfsStep (acc : FcfsAcc) (p : Process) : FcfsAcc :=
  let t := if acc.time < p.arrival then p.arrival else acc.time
  { time := t + p.burst
    start := acc.start ++ [t]
    finish := acc.finish ++ [t + p.burst]
    order := acc.order ++ [p.pid] }

/-- The `/fcfs` endpoint: in-place sort by arrival, then one pass. -/
def fcfs (processes : List Process) : ScheduleResult :=
  let acc := (sortByArrival processes).foldl fcfsStep ⟨0, [], [], []⟩
  ⟨acc.finish, acc.order⟩

/-- The caller-visible content of the `processes` list after `fcfs` returns:
`processes.sort(...)` mutates the caller's list in place, so afterwards the
caller holds the arrival-sorted list. -/
def fcfs_batchAfter (processes : List Process) : List Process :=
  sortByArrival processes

/-- Python's `min(l, key=key)` on a list: the first element attaining the
minimal key; `none` exactly when the list is empty (Python raises). -/
def pyMin (key : Process → Int) : List Process → Option Process
  | [] => none
  | x :: xs => some (xs.foldl (fun m p => if key p < key m then p else m) x)

/-- The list comprehension
`[p for p in processes if p[1] <= time and p not in completed]`
of `sjf`/`priority_scheduling`; membership in `completed` is structural
equality of the whole record, as in Python. -/
def npAvailable (sorted : List Process) (time : Int) (completed : List Process) :
    List Process :=
  sorted.filter (fun p => decide (p.arrival ≤ time ∧ ¬(p ∈ completed)))

/-- Loop state of `sjf`/`priority_scheduling`:
`time, completed, order, finish`. -/
structure NPState where
  time : Int
  completed : List Process
  order : List Int
  finish : List Int
deriving DecidableEq, Repr

/-- One iteration of the `while len(completed) < n` loop of
`sjf`/`priority_scheduling` (`key` is `x[2]` for SJF, `x[3]` for priority):
if no process is available the clock is incremented by one, otherwise the
`min` process runs to completion. -/
def npStep (key : Process → Int) (sorted : List Process) (st : NPState) : NPState :=
  match pyMin key (npAvailable sorted st.time st.completed) with
  | none => { st with time := st.time + 1 }
  | some p =>
      { time := st.time + p.burst
        completed := st.completed ++ [p]
        order := st.order ++ [p.pid]
        finish := st.finish ++ [st.time + p.burst] }

/-- The fuel-indexed `while len(completed) < n` loop. -/
def npLoop (key : Process → Int) (sorted : List Process) (n : Nat) :
    Nat → NPState → Option ScheduleResult
  | 0, _ => none
  | fuel + 1, st =>
      if st.completed.length < n then
        npLoop key sorted n fuel (npStep key sorted st)
      else
        some ⟨st.finish, st.order⟩

/-- The `/sjf` endpoint (fuel-indexed). -/
def sjf (fuel : Nat) (processes : List Process) : Option ScheduleResult :=
  npLoop (fun p => p.burst) (sortByArrival processes) processes.length fuel
    ⟨0, [], [], []⟩

/-- The `/pri` endpoint (fuel-indexed). -/
def priority_scheduling (fuel : Nat) (processes : List Process) :
    Option ScheduleResult :=
  npLoop (fun p => p.priority) (sortByArrival processes) processes.length fuel
    ⟨0, [], [], []⟩

/-- The caller-visible content of the `processes` list after `sjf` returns
(the in-place `processes.sort(key=lambda x: x[1])`). -/
def sjf_batchAfter (processes : List Process) : List Process :=
  sortByArrival processes

/-- The caller-visible content of the `processes` list after
`priority_scheduling` returns (the in-place sort). -/
def priority_batchAfter (processes : List Process) : List Process :=
  sortByArrival processes

/-! ### Round robin

`round_robin` builds `process_dict = {pid: {"arrival":…, "burst":…,
"priority":…, "remaining":…}}`.  Only the `arrival` and `remaining` entries
are ever read after construction, so the dictionary is embedded as an
association list of `(pid, arrival, remaining)` triples kept in Python's
dict insertion order (on duplicate keys Python keeps the first position and
the last value, as `dictInsert` does). -/

/-- Arrival field of `process_dict[k]` (`0` when `k` is absent; a reachable
lookup in the Python code always finds its key). -/
def dictArr : List (Int × Int × Int) → Int → Int
  | [], _ => 0
  | e :: d, k => if e.1 = k then e.2.1 else dictArr d k

/-- Remaining field of `process_dict[k]` (`0` when `k` is absent). -/
def dictRem : List (Int × Int × Int) → Int → Int
  | [], _ => 0
  | e :: d, k => if e.1 = k then e.2.2 else dictRem d k

/-- `process_dict[k]["remaining"] = v`. -/
def dictSetRem : List (Int × Int × Int) → Int → Int → List (Int × Int × Int)
  | [], _, _ => []
  | e :: d, k, v =>
      if e.1 = k then (e.1, e.2.1, v) :: dictSetRem d k v
      else e :: dictSetRem d k v

/-- One binding step of the dict comprehension: insert `(k, a, rem)`,
overwriting the value but keeping the position when `k` is already bound. -/
def dictInsert (d : List (Int × Int × Int)) (k a rem : Int) :
    List (Int × Int × Int) :=
  if d.any (fun e => e.1 = k) then
    d.map (fun e => if e.1 = k then (k, a, rem) else e)
  else d ++ [(k, a, rem)]

/-- `process_dict = {p[0]: {...,"remaining": p[2]} for p in processes}`. -/
def initDict (ps : List Process) : List (Int × Int × Int) :=
  ps.foldl (fun d p => dictInsert d p.pid p.arrival p.burst) []

/-- Loop state of `round_robin`. -/
structure RRState where
  time : Int
  queue : List Int
  comp : List Int
  dict : List (Int × Int × Int)
  order : List Int
  finish : List Int
deriving DecidableEq, Repr

/-- The admission condition of the two `for p in sorted_processes` scans:
`process_dict[pid]["arrival"] <= time and pid not in completed and
pid not in queue` (and `pid != current_pid` in the second scan, passed as
`excl`). -/
def rrCond (dict : List (Int × Int × Int)) (comp : List Int) (time : Int)
    (excl : List Int) (acc : List Int) (p : Process) : Bool :=
  decide (dictArr dict p.pid ≤ time ∧ ¬(p.pid ∈ comp) ∧ ¬(p.pid ∈ acc) ∧
    ¬(p.pid ∈ excl))

/-- A `for p in sorted_processes` admission scan, appending eligible pids
to the queue `acc`. -/
def rrAdmit (dict : List (Int × Int × Int)) (comp : List Int) (time : Int)
    (excl : List Int) : List Process → List Int → List Int
  | [], acc => acc
  | p :: rest, acc =>
      rrAdmit dict comp time excl rest
        (if rrCond dict comp time excl acc p then acc ++ [p.pid] else acc)

/-- One iteration of the `while len(completed) < n` loop of `round_robin`:
admit arrivals; if the queue is empty tick the clock by one, otherwise pop
the head, run it for `min(quantum, remaining)`, record the event, admit
arrivals that occurred during the slice, and re-queue or complete. -/
def rrStep (sorted : List Process) (quantum : Int) (st : RRState) : RRState :=
  match rrAdmit st.dict st.comp st.time [] sorted st.queue with
  | [] => { st with time := st.time + 1, queue := [] }
  | current :: rest =>
      let r := dictRem st.dict current
      let ex := min quantum r
      let dict' := dictSetRem st.dict current (r - ex)
      let time' := st.time + ex
      let order' := st.order ++ [current]
      let finish' := st.finish ++ [time']
      let q1 := rrAdmit dict' st.comp time' [current] sorted rest
      if r - ex > 0 then
        ⟨time', q1 ++ [current], st.comp, dict', order', finish'⟩
      else
        ⟨time', q1, if current ∈ st.comp then st.comp else st.comp ++ [current],
          dict', order', finish'⟩

/-- The fuel-indexed `while len(completed) < n` loop of `round_robin`. -/
def rrLoop (sorted : List Process) (quantum : Int) (n : Nat) :
    Nat → RRState → Option ScheduleResult
  | 0, _ => none
  | fuel + 1, st =>
      if st.comp.length < n then
        rrLoop sorted quantum n fuel (rrStep sorted quantum st)
      else
        some ⟨st.finish, st.order⟩

/-- Result of the `/rr` endpoint: the usage-error dictionary, a normal
result, or (in the fuel model) a run that did not finish. -/
inductive RRAnswer where
  | rrError (msg : String)
  | timeout
  | ok (r : ScheduleResult)
deriving DecidableEq, Repr

/-- The `/rr` endpoint (fuel-indexed): rejects a missing quantum, then runs
the round-robin loop from time 0 with an empty queue. -/
def round_robin (fuel : Nat) (processes : List Process)
    (quantum : Option Int) : RRAnswer :=
  match quantum with
  | none => .rrError "Quantum must be provided for Round Robin scheduling"
  | some q =>
      match rrLoop (sortByArrival processes) q processes.length fuel
          ⟨0, [], [], initDict processes, [], []⟩ with
      | some r => .ok r
      | none => .timeout

/-- The caller-visible content of the `processes` list after `round_robin`
returns: `sorted(processes, …)` copies, so the batch is untouched. -/
def rr_batchAfter (processes : List Process) : List Process :=
  processes

/-! ### Validity, bounds and fuel -/

/-- The batch validity contract of the spec: unique ids, non-negative
arrivals, positive bursts. -/
def ValidBatch (ps : List Process) : Prop :=
  (ps.map (fun p => p.pid)).Nodup ∧ (∀ p ∈ ps, 0 ≤ p.arrival) ∧
    ∀ p ∈ ps, 1 ≤ p.burst

instance : DecidablePred ValidBatch := fun ps => by
  unfold ValidBatch; infer_instance

/-- An upper bound on all arrival times (at least `0`). -/
def maxArrival (ps : List Process) : Int :=
  ps.foldl (fun a p => max a p.arrival) 0

/-- Total burst time of a batch, as a natural number. -/
def totalBurst (ps : List Process) : Nat :=
  (ps.map (fun p => p.burst.toNat)).sum

/-- `ceil(b / q)` on the `toNat` images, the per-process slice count of
round robin. -/
def ceilN (b q : Int) : Nat :=
  (b.toNat + q.toNat - 1) / q.toNat

/-- Fuel sufficient for the `sjf`/`priority_scheduling` loop on a valid
batch: the loop runs at most `n` dispatch iterations and at most
`maxArrival` idle ticks. -/
def npFuel (ps : List Process) : Nat :=
  ps.length * ((maxArrival ps).toNat + 2) + (maxArrival ps).toNat + 2

/-- Fuel sufficient for the `round_robin` loop on a valid batch with a
positive quantum: at most `totalBurst` dispatch iterations and at most
`maxArrival` idle ticks. -/
def rrFuel (ps : List Process) : Nat :=
  totalBurst ps * ((maxArrival ps).toNat + 2) + (maxArrival ps).toNat + 2

/-- The accumulator pass of Python's `min(l, key=key)`. -/
def pyMinAux (key : Process → Int) (x : Process) (xs : List Process) : Process :=
  xs.foldl (fun m p => if key p < key m then p else m) x

/-! ### A by-id completion tracker, for comparison

`sjf`/`priority_scheduling` track completion as `p not in completed`,
i.e. structural equality of the whole record.  The spec words the tracking
as "strictly by process id".  The definitions below are that reading, to be
compared with the source-faithful ones. -/

/-- Modelled from the spec: the loop state of a scheduler that tracks
completion "strictly by process id in a mapping, never by structural
equality of the record" (the id list plays the mapping's key set). -/
structure NPIdState where
  time : Int
  completedIds : List Int
  order : List Int
  finish : List Int
deriving DecidableEq, Repr

/-- Modelled from the spec: eligibility filtered by id membership instead
of record membership. -/
def npAvailableById (sorted : List Process) (time : Int) (ids : List Int) :
    List Process :=
  sorted.filter (fun p => decide (p.arrival ≤ time ∧ ¬(p.pid ∈ ids)))

/-- Modelled from the spec: one non-preemptive iteration with by-id
completion tracking. -/
def npStepById (key : Process → Int) (sorted : List Process) (st : NPIdState) :
    NPIdState :=
  match pyMin key (npAvailableById sorted st.time st.completedIds) with
  | none => { st with time := st.time + 1 }
  | some p =>
      { time := st.time + p.burst
        completedIds := st.completedIds ++ [p.pid]
        order := st.order ++ [p.pid]
        finish := st.finish ++ [st.time + p.burst] }

/-- Modelled from the spec: the by-id non-preemptive loop. -/
def npLoopById (key : Process → Int) (sorted : List Process) (n : Nat) :
    Nat → NPIdState → Option ScheduleResult
  | 0, _ => none
  | fuel + 1, st =>
      if st.completedIds.length < n then
        npLoopById key sorted n fuel (npStepById key sorted st)
      else
        some ⟨st.finish, st.order⟩

/-- Modelled from the spec: SJF with by-id completion tracking. -/
def sjfById (fuel : Nat) (processes : List Process) : Option ScheduleResult :=
  npLoopById (fun p => p.burst) (sortByArrival processes) processes.length fuel
    ⟨0, [], [], []⟩

/-- Modelled from the spec: priority scheduling with by-id completion
tracking. -/
def priorityById (fuel : Nat) (processes : List Process) :
    Option ScheduleResult :=
  npLoopById (fun p => p.priority) (sortByArrival processes) processes.length
    fuel ⟨0, [], [], []⟩

/-! ### Invariants and measures -/

/-- Loop invariant of `sjf`/`priority_scheduling`. -/
def NPInv (ps : List Process) (st : NPState) : Prop :=
  st.completed.Nodup ∧ (∀ p ∈ st.completed, p ∈ sortByArrival ps) ∧
    st.order = st.completed.map (fun p => p.pid) ∧
    st.finish.length = st.completed.length ∧ 0 ≤ st.time

/-- Termination measure of the `sjf`/`priority_scheduling` loop: at most
`n` dispatches and the clock never idles past `maxArrival`. -/
def npMeasure (ps : List Process) (st : NPState) : Nat :=
  (ps.length - st.completed.length) * ((maxArrival ps).toNat + 2) +
    (maxArrival ps + 1 - st.time).toNat

/-- Total remaining work recorded in the round-robin dictionary. -/
def totalRem (d : List (Int × Int × Int)) : Nat :=
  (d.map (fun e => e.2.2.toNat)).sum

/-- Termination measure of the `round_robin` loop: every dispatch removes
at least one unit of remaining work, and the clock never idles past
`maxArrival`. -/
def rrMeasure (ps : List Process) (st : RRState) : Nat :=
  totalRem st.dict * ((maxArrival ps).toNat + 2) +
    (maxArrival ps + 1 - st.time).toNat

/-- The dictionary keeps the batch's pids (in order) with their arrivals;
only the remaining field varies over the run. -/
def DictInv (ps : List Process) (d : List (Int × Int × Int)) : Prop :=
  d.map (fun e => (e.1, e.2.1)) = ps.map (fun p => (p.pid, p.arrival))

/-- Loop invariant of `round_robin` for a valid batch and quantum `q`:
queue and completed set hold pids of the batch without duplicates, a
completed pid has no remaining work and `ceil(burst/q)` recorded events,
and an uncompleted pid has positive remaining work accounting for `q`
units per recorded event. -/
def RRInv (ps : List Process) (q : Int) (st : RRState) : Prop :=
  DictInv ps st.dict ∧
    st.comp.Nodup ∧ (∀ x ∈ st.comp, x ∈ ps.map (fun p => p.pid)) ∧
    st.queue.Nodup ∧
    (∀ x ∈ st.queue, x ∈ ps.map (fun p => p.pid) ∧ ¬(x ∈ st.comp)) ∧
    0 ≤ st.time ∧ st.finish.length = st.order.length ∧
    ∀ p ∈ ps,
      (p.pid ∈ st.comp →
        dictRem st.dict p.pid = 0 ∧ st.order.count p.pid = ceilN p.burst q) ∧
      (¬(p.pid ∈ st.comp) →
        0 < dictRem st.dict p.pid ∧
          (dictRem st.dict p.pid).toNat + q.toNat * st.order.count p.pid =
            p.burst.toNat)

theorem maxArrival_nonneg (ps : List Process) : 0 ≤ maxArrival ps := by
  have h : ∀ l : List Process, ∀ a : Int, 0 ≤ a →
      0 ≤ l.foldl (fun a p => max a p.arrival) a := by
    intro l
    induction l with
    | nil => intro a ha; exact ha
    | cons p l ih =>
        intro a ha
        exact ih _ (le_trans ha (le_max_left _ _))
  exact h ps 0 le_rfl

theorem le_foldlMax (l : List Process) (a : Int) :
    a ≤ l.foldl (fun a p => max a p.arrival) a := by
  induction l generalizing a with
  | nil => exact le_rfl
  | cons x l ih =>
      exact le_trans (le_max_left a x.arrival) (ih (max a x.arrival))

theorem arrival_le_maxArrival {ps : List Process} {p : Process} (hp : p ∈ ps) :
    p.arrival ≤ maxArrival ps := by
  have h : ∀ l : List Process, ∀ a : Int, ∀ q ∈ l,
      q.arrival ≤ l.foldl (fun a p => max a p.arrival) a := by
    intro l
    induction l with
    | nil => intro a q hq; cases hq
    | cons x l ih =>
        intro a q hq
        rcases List.mem_cons.mp hq with h | h
        · subst h
          exact le_trans (le_max_right a q.arrival) (le_foldlMax l _)
        · exact ih _ q h
  exact h ps 0 p hp

/-! ### Lemmas about `pyMin` -/

theorem pyMin_eq_pyMinAux (key : Process → Int) (x : Process)
    (xs : List Process) : pyMin key (x :: xs) = some (pyMinAux key x xs) :=
  rfl

theorem pyMin_eq_none_iff (key : Process → Int) (l : List Process) :
    pyMin key l = none ↔ l = [] := by
  cases l with
  | nil => simp [pyMin]
  | cons x xs => simp [pyMin]

/-- Python's `min` picks the first element attaining the minimal key:
every element strictly before the result has a strictly larger key, and no
element has a smaller key. -/
theorem pyMinAux_spec (key : Process → Int) :
    ∀ (xs : List Process) (x : Process),
      ∃ l₁ l₂, x :: xs = l₁ ++ pyMinAux key x xs :: l₂ ∧
        (∀ y ∈ l₁, key (pyMinAux key x xs) < key y) ∧
        ∀ y ∈ x :: xs, key (pyMinAux key x xs) ≤ key y := by
  intro xs
  induction xs with
  | nil =>
      intro x
      exact ⟨[], [], rfl, by simp, by simp [pyMinAux]⟩
  | cons p rest ih =>
      intro x
      by_cases h : key p < key x
      · obtain ⟨l₁, l₂, hsplit, hstrict, hle⟩ := ih p
        have hfold : pyMinAux key x (p :: rest) = pyMinAux key p rest := by
          simp [pyMinAux, h]
        refine ⟨x :: l₁, l₂, ?_, ?_, ?_⟩
        · rw [hfold]
          simpa using hsplit
        · intro y hy
          rw [hfold]
          rcases List.mem_cons.mp hy with rfl | hy
          · exact lt_of_le_of_lt (hle p (List.mem_cons_self p rest)) h
          · exact hstrict y hy
        · intro y hy
          rw [hfold]
          rcases List.mem_cons.mp hy with rfl | hy
          · exact le_of_lt (lt_of_le_of_lt (hle p (List.mem_cons_self p rest)) h)
          · exact hle y hy
      · obtain ⟨l₁, l₂, hsplit, hstrict, hle⟩ := ih x
        have hfold : pyMinAux key x (p :: rest) = pyMinAux key x rest := by
          simp [pyMinAux, h]
        rw [hfold]
        cases l₁ with
        | nil =>
            have hm : x = pyMinAux key x rest ∧ rest = l₂ := by
              have := hsplit
              simp at this
              exact ⟨this.1, this.2⟩
            refine ⟨[], p :: rest, ?_, by simp, ?_⟩
            · simp [← hm.1]
            · intro y hy
              rcases List.mem_cons.mp hy with rfl | hy
              · exact le_of_eq (congrArg key hm.1.symm)
              · rcases List.mem_cons.mp hy with rfl | hy
                · exact le_trans (le_of_eq (congrArg key hm.1.symm))
                    (le_of_not_lt h)
                · exact hle y (List.mem_cons_of_mem x hy)
        | cons z l₁' =>
            have hz : z = x ∧ rest = l₁' ++ pyMinAux key x rest :: l₂ := by
              have := hsplit
              simp at this
              exact ⟨this.1.symm, this.2⟩
            refine ⟨x :: p :: l₁', l₂, ?_, ?_, ?_⟩
            · rw [List.cons_append, List.cons_append]
              exact congrArg (fun t => x :: p :: t) hz.2
            · intro y hy
              have hx : key (pyMinAux key x rest) < key x := by
                have := hstrict z (List.mem_cons_self z l₁')
                rwa [hz.1] at this
              rcases List.mem_cons.mp hy with rfl | hy
              · exact hx
              · rcases List.mem_cons.mp hy with rfl | hy
                · exact lt_of_lt_of_le hx (le_of_not_lt h)
                · exact hstrict y (List.mem_cons_of_mem z hy)
            · intro y hy
              have hx : key (pyMinAux key x rest) ≤ key x :=
                hle x (List.mem_cons_self x rest)
              rcases List.mem_cons.mp hy with rfl | hy
              · exact hx
              · rcases List.mem_cons.mp hy with rfl | hy
                · exact le_trans hx (le_of_not_lt h)
                · exact hle y (List.mem_cons_of_mem x hy)

theorem pyMin_spec {key : Process → Int} {l : List Process} {m : Process}
    (h : pyMin key l = some m) :
    ∃ l₁ l₂, l = l₁ ++ m :: l₂ ∧ (∀ y ∈ l₁, key m < key y) ∧
      ∀ y ∈ l, key m ≤ key y := by
  cases l with
  | nil => cases h
  | cons x xs =>
      have hm : pyMinAux key x xs = m := by
        have := h
        rw [pyMin_eq_pyMinAux] at this
        exact Option.some.inj this
      obtain ⟨l₁, l₂, hsplit, hstrict, hle⟩ := pyMinAux_spec key xs x
      rw [hm] at hsplit hstrict hle
      exact ⟨l₁, l₂, hsplit, hstrict, hle⟩

theorem pyMin_mem {key : Process → Int} {l : List Process} {m : Process}
    (h : pyMin key l = some m) : m ∈ l := by
  obtain ⟨l₁, l₂, hsplit, -, -⟩ := pyMin_spec h
  rw [hsplit]
  exact List.mem_append.mpr (Or.inr (List.mem_cons_self m l₂))

/-! ### Lemmas about the arrival sort -/

theorem sortByArrival_perm (ps : List Process) :
    (sortByArrival ps).Perm ps :=
  List.perm_insertionSort _ ps

theorem mem_sortByArrival {ps : List Process} {p : Process} :
    p ∈ sortByArrival ps ↔ p ∈ ps :=
  (sortByArrival_perm ps).mem_iff

theorem sortByArrival_length (ps : List Process) :
    (sortByArrival ps).length = ps.length :=
  (sortByArrival_perm ps).length_eq

theorem sortByArrival_pid_nodup {ps : List Process}
    (h : (ps.map (fun p => p.pid)).Nodup) :
    ((sortByArrival ps).map (fun p => p.pid)).Nodup :=
  (((sortByArrival_perm ps).map (fun p => p.pid)).nodup_iff).mpr h

theorem sortByArrival_nodup {ps : List Process}
    (h : (ps.map (fun p => p.pid)).Nodup) : (sortByArrival ps).Nodup :=
  List.Nodup.of_map _ (sortByArrival_pid_nodup h)

/-! ### The non-preemptive loop: invariant, measure, termination -/

theorem mem_npAvailable {sorted : List Process} {time : Int}
    {completed : List Process} {p : Process} :
    p ∈ npAvailable sorted time completed ↔
      p ∈ sorted ∧ p.arrival ≤ time ∧ ¬(p ∈ completed) := by
  simp [npAvailable, List.mem_filter, and_assoc]

theorem npAvailable_eq_nil {sorted : List Process} {time : Int}
    {completed : List Process}
    (h : npAvailable sorted time completed = []) :
    ∀ p ∈ sorted, ¬(p ∈ completed) → ¬(p.arrival ≤ time) := by
  intro p hp hpc hle
  have hmem : p ∈ npAvailable sorted time completed :=
    mem_npAvailable.mpr ⟨hp, hle, hpc⟩
  rw [h] at hmem
  cases hmem

/-- On a valid batch, each loop iteration of `sjf`/`priority_scheduling`
preserves the invariant and strictly decreases the measure. -/
theorem npStep_spec {ps : List Process} (key : Process → Int)
    (hv : ValidBatch ps) {st : NPState} (hInv : NPInv ps st)
    (hlt : st.completed.length < ps.length) :
    NPInv ps (npStep key (sortByArrival ps) st) ∧
      npMeasure ps (npStep key (sortByArrival ps) st) < npMeasure ps st := by
  obtain ⟨hpids, harr, hburst⟩ := hv
  obtain ⟨hnd, hsub, hord, hfin, htime⟩ := hInv
  have hA0 : (0 : Int) ≤ maxArrival ps := maxArrival_nonneg ps
  cases hmin : pyMin key (npAvailable (sortByArrival ps) st.time st.completed) with
  | none =>
      have hnil : npAvailable (sortByArrival ps) st.time st.completed = [] :=
        (pyMin_eq_none_iff _ _).mp hmin
      -- some process is still unserved, and it has not arrived yet
      have hex : ∃ p ∈ sortByArrival ps, ¬(p ∈ st.completed) := by
        by_contra hall
        push_neg at hall
        have hsub2 : sortByArrival ps ⊆ st.completed := fun p hp => hall p hp
        have hle : (sortByArrival ps).length ≤ st.completed.length :=
          (List.subperm_of_subset (sortByArrival_nodup hpids) hsub2).length_le
        rw [sortByArrival_length] at hle
        omega
      obtain ⟨p, hp, hpc⟩ := hex
      have hgap : st.time < p.arrival := by
        have := npAvailable_eq_nil hnil p hp hpc
        omega
      have hpA : p.arrival ≤ maxArrival ps :=
        arrival_le_maxArrival (mem_sortByArrival.mp hp)
      have hstep : npStep key (sortByArrival ps) st = { st with time := st.time + 1 } := by
        simp [npStep, hmin]
      rw [hstep]
      constructor
      · exact ⟨hnd, hsub, hord, hfin, by dsimp only; omega⟩
      · dsimp only [npMeasure]
        omega
  | some p =>
      have hpav : p ∈ npAvailable (sortByArrival ps) st.time st.completed :=
        pyMin_mem hmin
      obtain ⟨hpsort, hparr, hpc⟩ := mem_npAvailable.mp hpav
      have hpmem : p ∈ ps := mem_sortByArrival.mp hpsort
      have hpb : 1 ≤ p.burst := hburst p hpmem
      have hnd' : (st.completed ++ [p]).Nodup := by
        rw [List.nodup_append]
        exact ⟨hnd, List.nodup_singleton p, by simpa [List.disjoint_singleton] using hpc⟩
      have hstep : npStep key (sortByArrival ps) st =
          { time := st.time + p.burst, completed := st.completed ++ [p],
            order := st.order ++ [p.pid],
            finish := st.finish ++ [st.time + p.burst] } := by
        simp [npStep, hmin]
      rw [hstep]
      constructor
      · refine ⟨hnd', ?_, ?_, ?_, ?_⟩
        · intro q hq
          rcases List.mem_append.mp hq with h | h
          · exact hsub q h
          · rw [List.mem_singleton.mp h]; exact hpsort
        · simp [hord]
        · simp [hfin]
        · simp only []
          omega
      · simp only [npMeasure, List.length_append, List.length_singleton]
        have hmul : (ps.length - st.completed.length) * ((maxArrival ps).toNat + 2) =
            (ps.length - (st.completed.length + 1)) * ((maxArrival ps).toNat + 2) +
              ((maxArrival ps).toNat + 2) := by
          have h1 : ps.length - st.completed.length =
              (ps.length - (st.completed.length + 1)) + 1 := by omega
          rw [h1, Nat.succ_mul]
        omega

/-- On a valid batch the non-preemptive loop terminates once the fuel
exceeds the measure, and the final completed list is a permutation of the
working list. -/
theorem npLoop_run {ps : List Process} (key : Process → Int)
    (hv : ValidBatch ps) :
    ∀ (fuel : Nat) (st : NPState), NPInv ps st → npMeasure ps st < fuel →
      ∃ stF : NPState,
        npLoop key (sortByArrival ps) ps.length fuel st =
          some ⟨stF.finish, stF.order⟩ ∧ NPInv ps stF ∧
          stF.completed.Perm (sortByArrival ps) := by
  intro fuel
  induction fuel with
  | zero => intro st hInv hM; omega
  | succ fuel ih =>
      intro st hInv hM
      rw [npLoop]
      by_cases hlt : st.completed.length < ps.length
      · rw [if_pos hlt]
        obtain ⟨hInv', hM'⟩ := npStep_spec key hv hInv hlt
        exact ih _ hInv' (by omega)
      · rw [if_neg hlt]
        refine ⟨st, rfl, hInv, ?_⟩
        have hsubp := List.subperm_of_subset hInv.1 (fun p hp => hInv.2.1 p hp)
        exact hsubp.perm_of_length_le (by rw [sortByArrival_length]; omega)

/-- Full run of the non-preemptive loop from the initial state on a valid
batch: a result is produced whose order is a permutation of the batch's
pids and whose lists have matching (full) lengths. -/
theorem np_run_result {ps : List Process} (key : Process → Int)
    (hv : ValidBatch ps) :
    ∃ r : ScheduleResult,
      npLoop key (sortByArrival ps) ps.length (npFuel ps) ⟨0, [], [], []⟩ =
        some r ∧ r.order.Perm (ps.map (fun p => p.pid)) ∧
        r.finish.length = r.order.length ∧ r.order.length = ps.length := by
  have hInv : NPInv ps ⟨0, [], [], []⟩ :=
    ⟨List.nodup_nil, by simp, rfl, rfl, le_rfl⟩
  have hM : npMeasure ps ⟨0, [], [], []⟩ < npFuel ps := by
    simp only [npMeasure, npFuel, List.length_nil, Nat.sub_zero, Int.sub_zero]
    have := maxArrival_nonneg ps
    omega
  obtain ⟨stF, heq, hInvF, hperm⟩ := npLoop_run key hv _ _ hInv hM
  have h1 : stF.order = stF.completed.map (fun p => p.pid) := hInvF.2.2.1
  refine ⟨⟨stF.finish, stF.order⟩, heq, ?_, ?_, ?_⟩
  · rw [h1]
    exact (hperm.map _).trans ((sortByArrival_perm ps).map _)
  · have h2 : stF.finish.length = stF.completed.length := hInvF.2.2.2.1
    simp [h1, h2]
  · rw [h1, List.length_map, hperm.length_eq, sortByArrival_length]

theorem npStep_lengths (key : Process → Int) (sorted : List Process)
    (st : NPState) (h : st.finish.length = st.order.length) :
    (npStep key sorted st).finish.length =
      (npStep key sorted st).order.length := by
  unfold npStep
  cases pyMin key (npAvailable sorted st.time st.completed) <;> simp [h]

/-- Whatever the input and fuel, a produced non-preemptive result has as
many finish times as order entries. -/
theorem npLoop_lengths (key : Process → Int) (sorted : List Process)
    (n : Nat) :
    ∀ (fuel : Nat) (st : NPState) (r : ScheduleResult),
      st.finish.length = st.order.length →
      npLoop key sorted n fuel st = some r →
      r.finish.length = r.order.length := by
  intro fuel
  induction fuel with
  | zero => intro st r h heq; cases heq
  | succ fuel ih =>
      intro st r h heq
      rw [npLoop] at heq
      by_cases hlt : st.completed.length < n
      · rw [if_pos hlt] at heq
        exact ih _ _ (npStep_lengths key sorted st h) heq
      · rw [if_neg hlt] at heq
        cases heq
        exact h

/-- With unique pids, tracking completion by structural record membership
(the source) and by id membership (the spec's wording) produce identical
eligibility lists, hence identical runs. -/
theorem npAvailable_eq_byId (sorted : List Process) (t : Int)
    (c : List Process) (hpids : (sorted.map (fun p => p.pid)).Nodup)
    (hc : ∀ p ∈ c, p ∈ sorted) :
    npAvailable sorted t c =
      npAvailableById sorted t (c.map (fun p => p.pid)) := by
  unfold npAvailable npAvailableById
  apply List.filter_congr
  intro p hp
  have hiff : p ∈ c ↔ p.pid ∈ c.map (fun p => p.pid) := by
    constructor
    · intro h
      exact List.mem_map.mpr ⟨p, h, rfl⟩
    · intro h
      obtain ⟨q, hq, hqp⟩ := List.mem_map.mp h
      have : q = p :=
        List.inj_on_of_nodup_map hpids (hc q hq) hp hqp
      rwa [← this]
  simp [hiff]

theorem npLoop_eq_byId (key : Process → Int) (sorted : List Process) (n : Nat)
    (hpids : (sorted.map (fun p => p.pid)).Nodup) :
    ∀ (fuel : Nat) (t : Int) (c : List Process) (o f : List Int),
      (∀ p ∈ c, p ∈ sorted) →
      npLoop key sorted n fuel ⟨t, c, o, f⟩ =
        npLoopById key sorted n fuel ⟨t, c.map (fun p => p.pid), o, f⟩ := by
  intro fuel
  induction fuel with
  | zero => intro t c o f hc; rfl
  | succ fuel ih =>
      intro t c o f hc
      rw [npLoop, npLoopById]
      dsimp only
      rw [List.length_map]
      by_cases hlt : c.length < n
      · rw [if_pos hlt, if_pos hlt]
        have havail := npAvailable_eq_byId sorted t c hpids hc
        unfold npStep npStepById
        dsimp only
        rw [← havail]
        cases hmin : pyMin key (npAvailable sorted t c) with
        | none =>
            simpa using ih (t + 1) c o f hc
        | some p =>
            have hp : p ∈ sorted :=
              (mem_npAvailable.mp (pyMin_mem hmin)).1
            have := ih (t + p.burst) (c ++ [p]) (o ++ [p.pid])
              (f ++ [t + p.burst])
              (by
                intro q hq
                rcases List.mem_append.mp hq with h | h
                · exact hc q h
                · rwa [List.mem_singleton.mp h])
            simpa using this
      · rw [if_neg hlt, if_neg hlt]

/-! ### FCFS lemmas -/

theorem fcfs_foldl (l : List Process) :
    ∀ acc : FcfsAcc,
      (l.foldl fcfsStep acc).order = acc.order ++ l.map (fun p => p.pid) ∧
        (l.foldl fcfsStep acc).finish.length = acc.finish.length + l.length := by
  induction l with
  | nil => intro acc; simp
  | cons p l ih =>
      intro acc
      simp only [List.foldl_cons, List.map_cons, List.length_cons]
      obtain ⟨h1, h2⟩ := ih (fcfsStep acc p)
      constructor
      · rw [h1]
        simp [fcfsStep]
      · rw [h2]
        simp only [fcfsStep, List.length_append, List.length_singleton]
        omega

/-- The order emitted by `fcfs` is exactly the arrival-sorted pid list. -/
theorem fcfs_order (ps : List Process) :
    (fcfs ps).order = (sortByArrival ps).map (fun p => p.pid) := by
  have h := (fcfs_foldl (sortByArrival ps) ⟨0, [], [], []⟩).1
  unfold fcfs
  simpa using h

theorem fcfs_finish_length (ps : List Process) :
    (fcfs ps).finish.length = ps.length := by
  have h := (fcfs_foldl (sortByArrival ps) ⟨0, [], [], []⟩).2
  unfold fcfs
  dsimp only
  rw [h]
  simp [sortByArrival_length]

theorem fcfs_order_length (ps : List Process) :
    (fcfs ps).order.length = ps.length := by
  rw [fcfs_order, List.length_map, sortByArrival_length]

theorem fcfs_order_perm (ps : List Process) :
    (fcfs ps).order.Perm (ps.map (fun p => p.pid)) := by
  rw [fcfs_order]
  exact (sortByArrival_perm ps).map _

/-! ### Dictionary lemmas -/

theorem totalRem_cons (e : Int × Int × Int) (d : List (Int × Int × Int)) :
    totalRem (e :: d) = e.2.2.toNat + totalRem d := by
  simp [totalRem]

theorem dictSetRem_cons (e : Int × Int × Int) (d : List (Int × Int × Int))
    (k v : Int) :
    dictSetRem (e :: d) k v =
      if e.1 = k then (e.1, e.2.1, v) :: dictSetRem d k v
      else e :: dictSetRem d k v :=
  rfl

theorem dictArr_setRem (d : List (Int × Int × Int)) (k v k' : Int) :
    dictArr (dictSetRem d k v) k' = dictArr d k' := by
  induction d with
  | nil => rfl
  | cons e d ih =>
      rw [dictSetRem_cons]
      by_cases h : e.1 = k
      · rw [if_pos h]
        by_cases h' : e.1 = k' <;> simp [dictArr, h', ih]
      · rw [if_neg h]
        by_cases h' : e.1 = k' <;> simp [dictArr, h', ih]

theorem dictRem_setRem_ne (d : List (Int × Int × Int)) (k v k' : Int)
    (h : k' ≠ k) : dictRem (dictSetRem d k v) k' = dictRem d k' := by
  induction d with
  | nil => rfl
  | cons e d ih =>
      rw [dictSetRem_cons]
      by_cases he : e.1 = k
      · rw [if_pos he]
        have : ¬(e.1 = k') := by rw [he]; exact fun hh => h hh.symm
        simp [dictRem, this, ih]
      · rw [if_neg he]
        by_cases h' : e.1 = k' <;> simp [dictRem, h', ih]

theorem dictRem_setRem_self (d : List (Int × Int × Int)) (k v : Int)
    (h : k ∈ d.map (fun e => e.1)) : dictRem (dictSetRem d k v) k = v := by
  induction d with
  | nil => simp at h
  | cons e d ih =>
      rw [dictSetRem_cons]
      by_cases he : e.1 = k
      · rw [if_pos he]
        simp [dictRem, he]
      · rw [if_neg he]
        rw [List.map_cons] at h
        have hk : k ∈ d.map (fun e => e.1) := by
          rcases List.mem_cons.mp h with h1 | h1
          · exact absurd h1.symm he
          · exact h1
        simp [dictRem, he, ih hk]

theorem dictSetRem_of_not_mem (d : List (Int × Int × Int)) (k v : Int)
    (h : ¬(k ∈ d.map (fun e => e.1))) : dictSetRem d k v = d := by
  induction d with
  | nil => rfl
  | cons e d ih =>
      rw [dictSetRem_cons]
      have he : ¬(e.1 = k) := fun hh => h (by simp [hh])
      rw [if_neg he, ih (fun hh => h (by simp [hh]))]

theorem totalRem_setRem (d : List (Int × Int × Int)) (k v : Int)
    (hnd : (d.map (fun e => e.1)).Nodup) (hk : k ∈ d.map (fun e => e.1)) :
    totalRem (dictSetRem d k v) + (dictRem d k).toNat =
      totalRem d + v.toNat := by
  induction d with
  | nil => simp at hk
  | cons e d ih =>
      rw [dictSetRem_cons]
      rw [List.map_cons] at hnd hk
      rcases List.nodup_cons.mp hnd with ⟨hnotin, hnd'⟩
      by_cases he : e.1 = k
      · rw [if_pos he]
        have hnot : ¬(k ∈ d.map (fun e => e.1)) := by rwa [he] at hnotin
        rw [dictSetRem_of_not_mem d k v hnot, totalRem_cons, totalRem_cons]
        have hr : dictRem (e :: d) k = e.2.2 := by simp [dictRem, he]
        rw [hr]
        dsimp only
        omega
      · rw [if_neg he]
        have hk' : k ∈ d.map (fun e => e.1) := by
          rcases List.mem_cons.mp hk with h1 | h1
          · exact absurd h1.symm he
          · exact h1
        rw [totalRem_cons, totalRem_cons]
        have hih := ih hnd' hk'
        have hr : dictRem (e :: d) k = dictRem d k := by simp [dictRem, he]
        rw [hr]
        omega

theorem dictSetRem_keyArr (d : List (Int × Int × Int)) (k v : Int) :
    (dictSetRem d k v).map (fun e => (e.1, e.2.1)) =
      d.map (fun e => (e.1, e.2.1)) := by
  induction d with
  | nil => rfl
  | cons e d ih =>
      rw [dictSetRem_cons]
      by_cases he : e.1 = k
      · rw [if_pos he]
        simp [ih, he]
      · rw [if_neg he]
        simp [ih]

theorem dictInv_setRem {ps : List Process} {d : List (Int × Int × Int)}
    (h : DictInv ps d) (k v : Int) : DictInv ps (dictSetRem d k v) := by
  unfold DictInv at h ⊢
  rw [dictSetRem_keyArr, h]

theorem dictInv_keys {ps : List Process} {d : List (Int × Int × Int)}
    (h : DictInv ps d) :
    d.map (fun e => e.1) = ps.map (fun p => p.pid) := by
  have h2 := congrArg (List.map Prod.fst) h
  simpa [List.map_map, Function.comp] using h2

theorem dictArr_of_inv {ps : List Process} {d : List (Int × Int × Int)}
    (hInv : DictInv ps d) (hpids : (ps.map (fun p => p.pid)).Nodup)
    {p : Process} (hp : p ∈ ps) : dictArr d p.pid = p.arrival := by
  induction ps generalizing d with
  | nil => cases hp
  | cons p0 ps ih =>
      unfold DictInv at hInv
      cases d with
      | nil => simp at hInv
      | cons e d =>
          simp only [List.map_cons, List.cons.injEq, Prod.mk.injEq] at hInv
          obtain ⟨⟨he1, he2⟩, htail⟩ := hInv
          rcases List.mem_cons.mp hp with rfl | hmem
          · simp [dictArr, he1, he2]
          · have hne : ¬(e.1 = p.pid) := by
              rw [he1]
              intro hh
              have : p0.pid ∈ ps.map (fun p => p.pid) :=
                hh ▸ List.mem_map.mpr ⟨p, hmem, rfl⟩
              exact (List.nodup_cons.mp (by simpa using hpids)).1 this
            rw [dictArr, if_neg hne]
            exact ih htail (List.nodup_cons.mp (by simpa using hpids)).2 hmem

theorem dictRem_of_explicit {ps : List Process}
    (hpids : (ps.map (fun p => p.pid)).Nodup) {p : Process} (hp : p ∈ ps) :
    dictRem (ps.map (fun p => (p.pid, p.arrival, p.burst))) p.pid =
      p.burst := by
  induction ps with
  | nil => cases hp
  | cons p0 ps ih =>
      rcases List.mem_cons.mp hp with rfl | hmem
      · simp [dictRem]
      · have hne : ¬(p0.pid = p.pid) := by
          intro hh
          have : p0.pid ∈ ps.map (fun p => p.pid) :=
            hh ▸ List.mem_map.mpr ⟨p, hmem, rfl⟩
          exact (List.nodup_cons.mp (by simpa using hpids)).1 this
        simp only [List.map_cons, dictRem, hne, if_neg]
        exact ih (List.nodup_cons.mp (by simpa using hpids)).2 hmem

theorem initDict_eq {ps : List Process}
    (h : (ps.map (fun p => p.pid)).Nodup) :
    initDict ps = ps.map (fun p => (p.pid, p.arrival, p.burst)) := by
  have key : ∀ (l : List Process) (acc : List (Int × Int × Int)),
      (l.map (fun p => p.pid)).Nodup →
      (∀ p ∈ l, ¬(p.pid ∈ acc.map (fun e => e.1))) →
      l.foldl (fun d p => dictInsert d p.pid p.arrival p.burst) acc =
        acc ++ l.map (fun p => (p.pid, p.arrival, p.burst)) := by
    intro l
    induction l with
    | nil => intro acc _ _; simp
    | cons p l ih =>
        intro acc hnd hacc
        simp only [List.foldl_cons, List.map_cons]
        have hany : acc.any (fun e => e.1 = p.pid) = false := by
          rw [List.any_eq_false]
          intro e he
          simp only [decide_eq_true_eq]
          intro hh
          exact hacc p (List.mem_cons_self p l)
            (List.mem_map.mpr ⟨e, he, hh⟩)
        have hins : dictInsert acc p.pid p.arrival p.burst =
            acc ++ [(p.pid, p.arrival, p.burst)] := by
          unfold dictInsert
          rw [hany]
          simp
        rw [hins]
        have hnd' : (l.map (fun p => p.pid)).Nodup :=
          (List.nodup_cons.mp (by simpa using hnd)).2
        have hacc' : ∀ q ∈ l,
            ¬(q.pid ∈ (acc ++ [(p.pid, p.arrival, p.burst)]).map
              (fun e => e.1)) := by
          intro q hq
          simp only [List.map_append, List.mem_append]
          rintro (hh | hh)
          · exact hacc q (List.mem_cons_of_mem p hq) hh
          · simp only [List.map_cons, List.map_nil, List.mem_singleton] at hh
            have : p.pid ∈ l.map (fun p => p.pid) :=
              hh ▸ List.mem_map.mpr ⟨q, hq, rfl⟩
            exact (List.nodup_cons.mp (by simpa using hnd)).1 this
        rw [ih _ hnd' hacc', List.append_assoc]
        rfl
  have h2 := key ps [] h (by simp)
  simpa [initDict] using h2

theorem dictInv_initDict {ps : List Process}
    (h : (ps.map (fun p => p.pid)).Nodup) : DictInv ps (initDict ps) := by
  unfold DictInv
  rw [initDict_eq h]
  simp [List.map_map, Function.comp]

theorem dictRem_initDict {ps : List Process}
    (h : (ps.map (fun p => p.pid)).Nodup) {p : Process} (hp : p ∈ ps) :
    dictRem (initDict ps) p.pid = p.burst := by
  rw [initDict_eq h]
  exact dictRem_of_explicit h hp

theorem totalRem_initDict {ps : List Process}
    (h : (ps.map (fun p => p.pid)).Nodup) :
    totalRem (initDict ps) = totalBurst ps := by
  rw [initDict_eq h]
  unfold totalRem totalBurst
  rw [List.map_map]
  rfl

/-! ### Admission-scan lemmas -/

theorem rrCond_iff {dict : List (Int × Int × Int)} {comp : List Int}
    {time : Int} {excl acc : List Int} {p : Process} :
    rrCond dict comp time excl acc p = true ↔
      dictArr dict p.pid ≤ time ∧ ¬(p.pid ∈ comp) ∧ ¬(p.pid ∈ acc) ∧
        ¬(p.pid ∈ excl) := by
  simp [rrCond]

theorem rrAdmit_append (dict : List (Int × Int × Int)) (comp : List Int)
    (time : Int) (excl : List Int) :
    ∀ (l : List Process) (acc : List Int),
      ∃ ext, rrAdmit dict comp time excl l acc = acc ++ ext ∧
        ∀ x ∈ ext, (∃ p ∈ l, x = p.pid) ∧ ¬(x ∈ comp) ∧ ¬(x ∈ excl) := by
  intro l
  induction l with
  | nil =>
      intro acc
      exact ⟨[], by simp [rrAdmit], by simp⟩
  | cons p rest ih =>
      intro acc
      rw [rrAdmit]
      by_cases hc : rrCond dict comp time excl acc p = true
      · rw [if_pos hc]
        obtain ⟨hcarr, hccomp, hcacc, hcexcl⟩ := rrCond_iff.mp hc
        obtain ⟨ext, heq, hext⟩ := ih (acc ++ [p.pid])
        refine ⟨p.pid :: ext, ?_, ?_⟩
        · rw [heq, List.append_assoc]
          rfl
        · intro x hx
          rcases List.mem_cons.mp hx with rfl | hx
          · exact ⟨⟨p, List.mem_cons_self p rest, rfl⟩, hccomp, hcexcl⟩
          · obtain ⟨⟨pq, hpq, hxq⟩, h1, h2⟩ := hext x hx
            exact ⟨⟨pq, List.mem_cons_of_mem p hpq, hxq⟩, h1, h2⟩
      · rw [if_neg hc]
        obtain ⟨ext, heq, hext⟩ := ih acc
        refine ⟨ext, heq, ?_⟩
        intro x hx
        obtain ⟨⟨pq, hpq, hxq⟩, h1, h2⟩ := hext x hx
        exact ⟨⟨pq, List.mem_cons_of_mem p hpq, hxq⟩, h1, h2⟩

theorem rrAdmit_mem_mono {dict : List (Int × Int × Int)} {comp : List Int}
    {time : Int} {excl : List Int} (l : List Process) (acc : List Int)
    {x : Int} (hx : x ∈ acc) : x ∈ rrAdmit dict comp time excl l acc := by
  obtain ⟨ext, heq, -⟩ := rrAdmit_append dict comp time excl l acc
  rw [heq]
  exact List.mem_append.mpr (Or.inl hx)

theorem rrAdmit_nodup (dict : List (Int × Int × Int)) (comp : List Int)
    (time : Int) (excl : List Int) :
    ∀ (l : List Process) (acc : List Int), acc.Nodup →
      (rrAdmit dict comp time excl l acc).Nodup := by
  intro l
  induction l with
  | nil => intro acc h; simpa [rrAdmit] using h
  | cons p rest ih =>
      intro acc h
      rw [rrAdmit]
      by_cases hc : rrCond dict comp time excl acc p = true
      · rw [if_pos hc]
        obtain ⟨-, -, hcacc, -⟩ := rrCond_iff.mp hc
        refine ih _ ?_
        rw [List.nodup_append]
        exact ⟨h, List.nodup_singleton _, by simpa [List.disjoint_singleton] using hcacc⟩
      · rw [if_neg hc]
        exact ih _ h

theorem rrAdmit_eq_nil {dict : List (Int × Int × Int)} {comp : List Int}
    {time : Int} {excl : List Int} :
    ∀ {l : List Process} {acc : List Int},
      rrAdmit dict comp time excl l acc = [] →
      acc = [] ∧ ∀ p ∈ l, ¬(dictArr dict p.pid ≤ time ∧ ¬(p.pid ∈ comp) ∧
        ¬(p.pid ∈ excl)) := by
  intro l
  induction l with
  | nil =>
      intro acc h
      exact ⟨by simpa [rrAdmit] using h, by simp⟩
  | cons p rest ih =>
      intro acc h
      rw [rrAdmit] at h
      by_cases hc : rrCond dict comp time excl acc p = true
      · rw [if_pos hc] at h
        obtain ⟨ext, heq, -⟩ := rrAdmit_append dict comp time excl rest
          (acc ++ [p.pid])
        rw [heq] at h
        have := congrArg List.length h
        simp at this
      · rw [if_neg hc] at h
        obtain ⟨hacc, hrest⟩ := ih h
        subst hacc
        refine ⟨rfl, ?_⟩
        intro pq hpq
        rcases List.mem_cons.mp hpq with rfl | hpq
        · intro ⟨h1, h2, h3⟩
          exact hc (rrCond_iff.mpr ⟨h1, h2, by simp, h3⟩)
        · exact hrest pq hpq

theorem rrAdmit_mem (dict : List (Int × Int × Int)) (comp : List Int)
    (time : Int) (excl : List Int) :
    ∀ (l : List Process) (acc : List Int) (p : Process), p ∈ l →
      dictArr dict p.pid ≤ time → ¬(p.pid ∈ comp) → ¬(p.pid ∈ excl) →
      p.pid ∈ rrAdmit dict comp time excl l acc := by
  intro l
  induction l with
  | nil => intro acc p hp; cases hp
  | cons pq rest ih =>
      intro acc p hp harr hcomp hexcl
      rw [rrAdmit]
      rcases List.mem_cons.mp hp with rfl | hp
      · by_cases hc : rrCond dict comp time excl acc p = true
        · rw [if_pos hc]
          exact rrAdmit_mem_mono rest _
            (List.mem_append.mpr (Or.inr (List.mem_singleton.mpr rfl)))
        · rw [if_neg hc]
          have hacc : p.pid ∈ acc := by
            by_contra hacc
            exact hc (rrCond_iff.mpr ⟨harr, hcomp, hacc, hexcl⟩)
          exact rrAdmit_mem_mono rest _ hacc
      · by_cases hc : rrCond dict comp time excl acc pq = true
        · rw [if_pos hc]
          exact ih _ p hp harr hcomp hexcl
        · rw [if_neg hc]
          exact ih _ p hp harr hcomp hexcl

/-! ### Round-robin step invariant -/

theorem count_append_ne {a b : Int} (l : List Int) (h : a ≠ b) :
    (l ++ [b]).count a = l.count a := by
  simp [List.count_append, List.count_singleton', h]

theorem count_append_self (a : Int) (l : List Int) :
    (l ++ [a]).count a = l.count a + 1 := by
  simp [List.count_append]

/-- A process of burst `B` that has executed `C` full slices of `Q` time
units and one final slice of `R ≤ Q` units has run `ceil(B/Q)` slices. -/
theorem ceil_slice_arith (B Q C R : Nat) (hQ : 1 ≤ Q) (hR1 : 1 ≤ R)
    (hRQ : R ≤ Q) (hB : R + Q * C = B) : C + 1 = (B + Q - 1) / Q := by
  have h1 : B + Q - 1 = (R - 1) + Q * (C + 1) := by
    rw [Nat.mul_succ]
    omega
  rw [h1, Nat.add_mul_div_left _ _ (show 0 < Q by omega),
    Nat.div_eq_of_lt (show R - 1 < Q by omega)]
  omega

/-- On a valid batch with a positive quantum, each loop iteration of
`round_robin` preserves the invariant and strictly decreases the
measure. -/
theorem rrStep_spec {ps : List Process} {q : Int} (hv : ValidBatch ps)
    (hq : 1 ≤ q) {st : RRState} (hInv : RRInv ps q st)
    (hlt : st.comp.length < ps.length) :
    RRInv ps q (rrStep (sortByArrival ps) q st) ∧
      rrMeasure ps (rrStep (sortByArrival ps) q st) < rrMeasure ps st := by
  obtain ⟨hpids, harr, hburst⟩ := hv
  obtain ⟨hdict, hcnd, hcmem, hqnd, hqmem, htime, hlen, hrem⟩ := hInv
  have hA0 : (0 : Int) ≤ maxArrival ps := maxArrival_nonneg ps
  have hkeys : st.dict.map (fun e => e.1) = ps.map (fun p => p.pid) :=
    dictInv_keys hdict
  cases hq0 : rrAdmit st.dict st.comp st.time [] (sortByArrival ps) st.queue with
  | nil =>
      have hstep : rrStep (sortByArrival ps) q st =
          { st with time := st.time + 1, queue := [] } := by
        unfold rrStep
        rw [hq0]
      obtain ⟨hacc, hnone⟩ := rrAdmit_eq_nil hq0
      have hex : ∃ p ∈ ps, ¬(p.pid ∈ st.comp) := by
        by_contra hall
        push_neg at hall
        have hsub : ps.map (fun p => p.pid) ⊆ st.comp := by
          intro x hx
          obtain ⟨p, hp, rfl⟩ := List.mem_map.mp hx
          exact hall p hp
        have h2 := (List.subperm_of_subset hpids hsub).length_le
        rw [List.length_map] at h2
        omega
      obtain ⟨p, hp, hpc⟩ := hex
      have hparr : dictArr st.dict p.pid = p.arrival :=
        dictArr_of_inv hdict hpids hp
      have hgap : st.time < p.arrival := by
        by_contra hle
        push_neg at hle
        exact hnone p (mem_sortByArrival.mpr hp)
          ⟨by rw [hparr]; exact hle, hpc, by simp⟩
      have hpA : p.arrival ≤ maxArrival ps := arrival_le_maxArrival hp
      rw [hstep]
      constructor
      · exact ⟨hdict, hcnd, hcmem, List.nodup_nil, by simp,
          by dsimp only; omega, hlen, hrem⟩
      · dsimp only [rrMeasure]
        omega
  | cons current rest =>
      have hq0nd : (current :: rest).Nodup := by
        rw [← hq0]
        exact rrAdmit_nodup _ _ _ _ _ _ hqnd
      have hq0mem : ∀ x ∈ current :: rest,
          x ∈ ps.map (fun p => p.pid) ∧ ¬(x ∈ st.comp) := by
        obtain ⟨ext, heq, hext⟩ := rrAdmit_append st.dict st.comp st.time []
          (sortByArrival ps) st.queue
        rw [hq0] at heq
        intro x hx
        rw [heq] at hx
        rcases List.mem_append.mp hx with h | h
        · exact hqmem x h
        · obtain ⟨⟨pq, hpq, rfl⟩, h1, -⟩ := hext x h
          exact ⟨List.mem_map.mpr ⟨pq, mem_sortByArrival.mp hpq, rfl⟩, h1⟩
      obtain ⟨hcurpids, hcurcomp⟩ := hq0mem current (List.mem_cons_self _ _)
      obtain ⟨pc, hpc, hpcid⟩ := List.mem_map.mp hcurpids
      have hrpc := (hrem pc hpc).2 (by rwa [hpcid])
      have hr : 0 < dictRem st.dict current := by
        rw [← hpcid]
        exact hrpc.1
      have hreqc : (dictRem st.dict current).toNat +
          q.toNat * st.order.count current = pc.burst.toNat := by
        rw [← hpcid]
        exact hrpc.2
      set r := dictRem st.dict current with hrdef
      set ex := min q r with hexdef
      set d2 := dictSetRem st.dict current (r - ex) with hd2def
      set t2 := st.time + ex with ht2def
      set q1 := rrAdmit d2 st.comp t2 [current] (sortByArrival ps) rest
        with hq1def
      have hex1 : 1 ≤ ex := le_min hq hr
      have hexle : ex ≤ r := min_le_right _ _
      have hstep : rrStep (sortByArrival ps) q st =
          if r - ex > 0 then
            ⟨t2, q1 ++ [current], st.comp, d2, st.order ++ [current],
              st.finish ++ [t2]⟩
          else
            ⟨t2, q1,
              if current ∈ st.comp then st.comp else st.comp ++ [current],
              d2, st.order ++ [current], st.finish ++ [t2]⟩ := by
        unfold rrStep
        rw [hq0]
      have hd2inv : DictInv ps d2 := dictInv_setRem hdict _ _
      have hkeycur : current ∈ st.dict.map (fun e => e.1) := by
        rw [hkeys]
        exact hcurpids
      have hkeynd : (st.dict.map (fun e => e.1)).Nodup := by
        rw [hkeys]
        exact hpids
      have hd2cur : dictRem d2 current = r - ex :=
        dictRem_setRem_self _ _ _ hkeycur
      have hd2ne : ∀ x, x ≠ current → dictRem d2 x = dictRem st.dict x :=
        fun x hx => dictRem_setRem_ne _ _ _ _ hx
      have htot : totalRem d2 + r.toNat = totalRem st.dict + (r - ex).toNat :=
        totalRem_setRem _ _ _ hkeynd hkeycur
      have hrestnd : rest.Nodup := (List.nodup_cons.mp hq0nd).2
      have hcurrest : ¬(current ∈ rest) := (List.nodup_cons.mp hq0nd).1
      have hq1nd : q1.Nodup := rrAdmit_nodup _ _ _ _ _ _ hrestnd
      have hq1mem : ∀ x ∈ q1,
          x ∈ ps.map (fun p => p.pid) ∧ ¬(x ∈ st.comp) ∧ x ≠ current := by
        obtain ⟨ext2, hq1eq, hext2⟩ := rrAdmit_append d2 st.comp t2 [current]
          (sortByArrival ps) rest
        intro x hx
        rw [hq1def, hq1eq] at hx
        rcases List.mem_append.mp hx with h | h
        · have h2 := hq0mem x (List.mem_cons_of_mem _ h)
          exact ⟨h2.1, h2.2, fun hc => hcurrest (hc ▸ h)⟩
        · obtain ⟨⟨pq, hpq, rfl⟩, h1, h2⟩ := hext2 x h
          exact ⟨List.mem_map.mpr ⟨pq, mem_sortByArrival.mp hpq, rfl⟩, h1,
            by simpa using h2⟩
      have hcurq1 : ¬(current ∈ q1) := fun hc => (hq1mem current hc).2.2 rfl
      have hmeasure : ∀ (qq cc : List Int),
          rrMeasure ps ⟨t2, qq, cc, d2, st.order ++ [current],
            st.finish ++ [t2]⟩ < rrMeasure ps st := by
        intro qq cc
        dsimp only [rrMeasure]
        have h1 : totalRem d2 < totalRem st.dict := by omega
        have h2 : (totalRem d2 + 1) * ((maxArrival ps).toNat + 2) ≤
            totalRem st.dict * ((maxArrival ps).toNat + 2) :=
          Nat.mul_le_mul_right _ (by omega)
        rw [Nat.succ_mul] at h2
        omega
      by_cases hb : r - ex > 0
      · rw [hstep, if_pos hb]
        have hexq : ex = q := by
          by_cases hqr : q ≤ r
          · rw [hexdef, min_eq_left hqr]
          · exfalso
            push_neg at hqr
            rw [hexdef, min_eq_right (le_of_lt hqr)] at hb
            omega
        refine ⟨⟨hd2inv, hcnd, hcmem, ?_, ?_, ?_, ?_, ?_⟩, hmeasure _ _⟩
        · rw [List.nodup_append]
          exact ⟨hq1nd, List.nodup_singleton _,
            by simpa [List.disjoint_singleton] using hcurq1⟩
        · intro x hx
          rcases List.mem_append.mp hx with h | h
          · exact ⟨(hq1mem x h).1, (hq1mem x h).2.1⟩
          · rw [List.mem_singleton.mp h]
            exact ⟨hcurpids, hcurcomp⟩
        · show (0 : Int) ≤ t2
          omega
        · show (st.finish ++ [t2]).length = (st.order ++ [current]).length
          simp [hlen]
        · intro p hp
          by_cases hpcur : p.pid = current
          · have hppc : p = pc :=
              List.inj_on_of_nodup_map hpids hp hpc (by rw [hpcid, hpcur])
            constructor
            · intro hmem
              rw [hpcur] at hmem
              exact absurd hmem hcurcomp
            · intro hmem
              rw [hpcur] at hmem ⊢
              refine ⟨by rw [hd2cur]; omega, ?_⟩
              rw [hd2cur, count_append_self, Nat.mul_succ, hppc]
              have hB := hreqc
              omega
          · have hrw : dictRem d2 p.pid = dictRem st.dict p.pid :=
              hd2ne p.pid hpcur
            have hcnt : (st.order ++ [current]).count p.pid =
                st.order.count p.pid := count_append_ne _ hpcur
            constructor
            · intro hmem
              rw [hrw, hcnt]
              exact (hrem p hp).1 hmem
            · intro hmem
              rw [hrw, hcnt]
              exact (hrem p hp).2 hmem
      · rw [hstep, if_neg hb]
        have h0 : r - ex = 0 := by omega
        have hrq : r ≤ q := by
          by_contra hqr
          push_neg at hqr
          have hh : ex = q := by rw [hexdef, min_eq_left (le_of_lt hqr)]
          omega
        rw [if_neg hcurcomp]
        have hcur' : current ∈ st.comp ++ [current] :=
          List.mem_append.mpr (Or.inr (List.mem_singleton.mpr rfl))
        refine ⟨⟨hd2inv, ?_, ?_, hq1nd, ?_, ?_, ?_, ?_⟩, hmeasure _ _⟩
        · rw [List.nodup_append]
          exact ⟨hcnd, List.nodup_singleton _,
            by simpa [List.disjoint_singleton] using hcurcomp⟩
        · intro x hx
          rcases List.mem_append.mp hx with h | h
          · exact hcmem x h
          · rw [List.mem_singleton.mp h]
            exact hcurpids
        · intro x hx
          obtain ⟨h1, h2, h3⟩ := hq1mem x hx
          refine ⟨h1, ?_⟩
          rw [List.mem_append]
          rintro (h | h)
          · exact h2 h
          · exact h3 (List.mem_singleton.mp h)
        · show (0 : Int) ≤ t2
          omega
        · show (st.finish ++ [t2]).length = (st.order ++ [current]).length
          simp [hlen]
        · intro p hp
          by_cases hpcur : p.pid = current
          · have hppc : p = pc :=
              List.inj_on_of_nodup_map hpids hp hpc (by rw [hpcid, hpcur])
            constructor
            · intro hmem
              rw [hpcur, hd2cur, count_append_self]
              refine ⟨by omega, ?_⟩
              have hQ1 : 1 ≤ q.toNat := by omega
              have hR1 : 1 ≤ r.toNat := by omega
              have hRQ : r.toNat ≤ q.toNat := by omega
              have hceil := ceil_slice_arith pc.burst.toNat q.toNat
                (st.order.count current) r.toNat hQ1 hR1 hRQ (by omega)
              rw [hppc]
              unfold ceilN
              omega
            · intro hmem
              rw [hpcur] at hmem
              exact absurd hcur' hmem
          · have hrw : dictRem d2 p.pid = dictRem st.dict p.pid :=
              hd2ne p.pid hpcur
            have hcnt : (st.order ++ [current]).count p.pid =
                st.order.count p.pid := count_append_ne _ hpcur
            have hcmem2 : p.pid ∈ st.comp ++ [current] ↔ p.pid ∈ st.comp := by
              rw [List.mem_append]
              constructor
              · rintro (h | h)
                · exact h
                · exact absurd (List.mem_singleton.mp h) hpcur
              · exact Or.inl
            constructor
            · intro hmem
              rw [hrw, hcnt]
              exact (hrem p hp).1 (hcmem2.mp hmem)
            · intro hmem
              rw [hrw, hcnt]
              exact (hrem p hp).2 (fun hh => hmem (hcmem2.mpr hh))

/-- On a valid batch with a positive quantum the round-robin loop
terminates once the fuel exceeds the measure, in a state where every
process is completed. -/
theorem rrLoop_run {ps : List Process} {q : Int} (hv : ValidBatch ps)
    (hq : 1 ≤ q) :
    ∀ (fuel : Nat) (st : RRState), RRInv ps q st → rrMeasure ps st < fuel →
      ∃ stF : RRState,
        rrLoop (sortByArrival ps) q ps.length fuel st =
          some ⟨stF.finish, stF.order⟩ ∧ RRInv ps q stF ∧
          ¬(stF.comp.length < ps.length) := by
  intro fuel
  induction fuel with
  | zero => intro st hInv hM; omega
  | succ fuel ih =>
      intro st hInv hM
      rw [rrLoop]
      by_cases hcl : st.comp.length < ps.length
      · rw [if_pos hcl]
        obtain ⟨hInv', hM'⟩ := rrStep_spec hv hq hInv hcl
        exact ih _ hInv' (by omega)
      · rw [if_neg hcl]
        exact ⟨st, rfl, hInv, hcl⟩

/-- Full run of `round_robin` on a valid batch with a positive quantum:
it returns a result, every pid is completed with zero remaining work, and
the pid has exactly `ceil(burst/quantum)` events in the order list. -/
theorem rr_run_result {ps : List Process} {q : Int} (hv : ValidBatch ps)
    (hq : 1 ≤ q) :
    ∃ stF : RRState,
      round_robin (rrFuel ps) ps (some q) =
        RRAnswer.ok ⟨stF.finish, stF.order⟩ ∧
        (∀ p ∈ ps, dictRem stF.dict p.pid = 0 ∧
          stF.order.count p.pid = ceilN p.burst q) ∧
        stF.finish.length = stF.order.length := by
  obtain ⟨hpids, harr, hburst⟩ := hv
  have hInv : RRInv ps q ⟨0, [], [], initDict ps, [], []⟩ := by
    refine ⟨dictInv_initDict hpids, List.nodup_nil, by simp, List.nodup_nil,
      by simp, le_rfl, rfl, ?_⟩
    intro p hp
    constructor
    · intro hmem
      simp at hmem
    · intro hmem
      rw [dictRem_initDict hpids hp]
      refine ⟨by have := hburst p hp; omega, ?_⟩
      simp
  have hM : rrMeasure ps ⟨0, [], [], initDict ps, [], []⟩ < rrFuel ps := by
    dsimp only [rrMeasure, rrFuel]
    rw [totalRem_initDict hpids]
    have := maxArrival_nonneg ps
    omega
  obtain ⟨stF, heq, hInvF, hdone⟩ :=
    rrLoop_run ⟨hpids, harr, hburst⟩ hq (rrFuel ps) _ hInv hM
  obtain ⟨hdictF, hcndF, hcmemF, -, -, -, hlenF, hremF⟩ := hInvF
  have hcomp : ∀ p ∈ ps, p.pid ∈ stF.comp := by
    have hsubp := List.subperm_of_subset hcndF hcmemF
    have hperm : stF.comp.Perm (ps.map (fun p => p.pid)) :=
      hsubp.perm_of_length_le (by rw [List.length_map]; omega)
    intro p hp
    exact hperm.mem_iff.mpr (List.mem_map.mpr ⟨p, hp, rfl⟩)
  refine ⟨stF, ?_, ?_, hlenF⟩
  · unfold round_robin
    dsimp only
    rw [heq]
  · intro p hp
    exact (hremF p hp).1 (hcomp p hp)

theorem rrStep_lengths (sorted : List Process) (q : Int) (st : RRState)
    (h : st.finish.length = st.order.length) :
    (rrStep sorted q st).finish.length =
      (rrStep sorted q st).order.length := by
  unfold rrStep
  cases rrAdmit st.dict st.comp st.time [] sorted st.queue with
  | nil => simpa using h
  | cons current rest =>
      dsimp only
      split <;> simp [h]

/-- Whatever the input and fuel, a produced round-robin result has as many
finish times as order entries. -/
theorem rrLoop_lengths (sorted : List Process) (q : Int) (n : Nat) :
    ∀ (fuel : Nat) (st : RRState) (r : ScheduleResult),
      st.finish.length = st.order.length →
      rrLoop sorted q n fuel st = some r →
      r.finish.length = r.order.length := by
  intro fuel
  induction fuel with
  | zero => intro st r h heq; cases heq
  | succ fuel ih =>
      intro st r h heq
      rw [rrLoop] at heq
      by_cases hcl : st.comp.length < n
      · rw [if_pos hcl] at heq
        exact ih _ _ (rrStep_lengths sorted q st h) heq
      · rw [if_neg hcl] at heq
        cases heq
        exact h

/-! ### Non-termination of round robin at quantum 0 -/

/-- With quantum 0 the loop state cycles: the single process is dispatched
for `min(0, remaining) = 0` time units, loses no remaining work, and is
re-queued, so only `order`/`finish` grow. -/
theorem rrLoop_q0_cycle :
    ∀ (fuel : Nat) (o f : List Int),
      rrLoop (sortByArrival [⟨1, 0, 1, 0⟩]) 0 1 fuel
        ⟨0, [1], [], [(1, 0, 1)], o, f⟩ = none := by
  intro fuel
  induction fuel with
  | zero => intro o f; rfl
  | succ fuel ih =>
      intro o f
      exact ih (o ++ [1]) (f ++ [0])

/-! ### Claim theorems -/

/-- C1: the claim says a quantum that is absent **or ≤ 0** is reported as a
usage error and no schedule result is produced.  The code only rejects an
absent quantum: with `quantum = 0` (which is ≤ 0) the guard is passed, no
error is reported, and the loop never terminates — `min(0, remaining) = 0`
units are executed per dispatch, so no progress is made and, for every fuel
bound, the run is still unfinished (the Python process hangs, growing
`order`/`finish` forever).  This contradicts the claim's error contract, so
the code, not the claim, is wrong. -/
theorem C1_quantum_guard :
    round_robin 5 [⟨1, 0, 1, 0⟩] none =
      RRAnswer.rrError "Quantum must be provided for Round Robin scheduling" ∧
    ∀ fuel : Nat,
      round_robin fuel [⟨1, 0, 1, 0⟩] (some 0) = RRAnswer.timeout := by
  constructor
  · rfl
  · intro fuel
    have hnone : rrLoop (sortByArrival [⟨1, 0, 1, 0⟩]) 0
        ([(⟨1, 0, 1, 0⟩ : Process)].length) fuel
        ⟨0, [], [], initDict [⟨1, 0, 1, 0⟩], [], []⟩ = none := by
      cases fuel with
      | zero => rfl
      | succ fuel => exact rrLoop_q0_cycle fuel [1] [0]
    unfold round_robin
    dsimp only
    rw [hnone]

/-- C2 counterexample: `fcfs` sorts the caller-supplied list in place
(`processes.sort(...)` on the request object's list), so after the call the
caller's batch `[(1,3,1,0), (2,0,1,0)]` has become `[(2,0,1,0), (1,3,1,0)]`
— not the list that was passed in. -/
theorem C2_counterexample :
    fcfs_batchAfter [⟨1, 3, 1, 0⟩, ⟨2, 0, 1, 0⟩] =
      [⟨2, 0, 1, 0⟩, ⟨1, 3, 1, 0⟩] ∧
    ¬(fcfs_batchAfter [⟨1, 3, 1, 0⟩, ⟨2, 0, 1, 0⟩] =
      [⟨1, 3, 1, 0⟩, ⟨2, 0, 1, 0⟩]) := by
  constructor <;> decide

/-- C2 (amended): `round_robin` leaves the caller's batch unchanged (it
uses `sorted(...)`, a copy); `fcfs`, `sjf` and `priority_scheduling` sort
the caller's list in place by arrival, so afterwards the caller holds the
stable arrival-sorted permutation of the original records — content is
preserved as a multiset and no record's fields are mutated, but the order
changes whenever the input was not already arrival-sorted. -/
theorem C2_batch_effect (ps : List Process) :
    rr_batchAfter ps = ps ∧
    (fcfs_batchAfter ps).Perm ps ∧ (sjf_batchAfter ps).Perm ps ∧
    (priority_batchAfter ps).Perm ps ∧
    fcfs_batchAfter ps = sortByArrival ps ∧
    sjf_batchAfter ps = sortByArrival ps ∧
    priority_batchAfter ps = sortByArrival ps :=
  ⟨rfl, sortByArrival_perm ps, sortByArrival_perm ps, sortByArrival_perm ps,
    rfl, rfl, rfl⟩

/-- C4 counterexample: on the batch `[(1,5,1,_)]` (single process arriving
at time 5) the first loop iteration of `sjf` moves the clock from 0 to 1 —
one tick — not to 5, the minimum arrival among unserved processes, as the
claim states. -/
theorem C4_counterexample :
    (npStep (fun p => p.burst) (sortByArrival [⟨1, 5, 1, 0⟩])
        ⟨0, [], [], []⟩).time = 1 ∧
    ¬((npStep (fun p => p.burst) (sortByArrival [⟨1, 5, 1, 0⟩])
        ⟨0, [], [], []⟩).time = 5) ∧
    maxArrival [⟨1, 5, 1, 0⟩] = 5 := by
  refine ⟨by decide, by decide, by decide⟩

/-- C4 (amended): whenever no process is eligible, one loop iteration of
`sjf`/`priority_scheduling` advances the simulated clock by exactly one
time unit — a busy-wait up to the next arrival — rather than jumping
directly to the minimum arrival among unserved processes. -/
theorem C4_idle_one_tick (key : Process → Int) (sorted : List Process)
    (st : NPState) (h : npAvailable sorted st.time st.completed = []) :
    npStep key sorted st = { st with time := st.time + 1 } := by
  unfold npStep
  rw [h]
  rfl

theorem C4_witness :
    npAvailable (sortByArrival [⟨1, 5, 1, 0⟩]) 0 [] = [] ∧
    npStep (fun p => p.burst) (sortByArrival [⟨1, 5, 1, 0⟩])
        ⟨0, [], [], []⟩ = ⟨1, [], [], []⟩ := by
  refine ⟨by decide, ?_⟩
  rw [C4_idle_one_tick (fun p => p.burst) (sortByArrival [⟨1, 5, 1, 0⟩])
    ⟨0, [], [], []⟩ (by decide)]
  rfl

/-- C5 counterexample: Scenario D of the spec predicts the event sequence
(1,2),(2,3),(1,4),(2,5),(1,7); the code instead produces finish times
[2,4,6,7,8] (sum of bursts is 8, so the last event cannot be at 7). -/
theorem C5_counterexample :
    ¬(round_robin 20 [⟨1, 0, 5, 0⟩, ⟨2, 1, 3, 0⟩] (some 2) =
      RRAnswer.ok ⟨[2, 3, 4, 5, 7], [1, 2, 1, 2, 1]⟩) := by
  decide

/-- C5 (amended): on Scenario D (`quantum = 2`, processes `(1,0,5,_)` and
`(2,1,3,_)`) `round_robin` dispatches in order [1,2,1,2,1] with the event
sequence (1,2),(2,4),(1,6),(2,7),(1,8). -/
theorem C5_scenario_d :
    round_robin 20 [⟨1, 0, 5, 0⟩, ⟨2, 1, 3, 0⟩] (some 2) =
      RRAnswer.ok ⟨[2, 4, 6, 7, 8], [1, 2, 1, 2, 1]⟩ := by
  decide

/-- C6 counterexample: two processes with identical arrival and key, the
larger pid first in the batch.  The claimed arrival-then-smallest-id
tie-break would dispatch pid 1 first (order [1,2], finishes [1,2]); the
code dispatches pid 2 first (Python `min` keeps the first minimum of the
arrival-sorted list, which preserves input order on ties). -/
theorem C6_counterexample :
    sjf 5 [⟨2, 0, 1, 9⟩, ⟨1, 0, 1, 9⟩] = some ⟨[1, 2], [2, 1]⟩ ∧
    ¬(sjf 5 [⟨2, 0, 1, 9⟩, ⟨1, 0, 1, 9⟩] = some ⟨[1, 2], [1, 2]⟩) ∧
    priority_scheduling 5 [⟨2, 0, 1, 1⟩, ⟨1, 0, 1, 1⟩] =
      some ⟨[1, 2], [2, 1]⟩ ∧
    ¬(priority_scheduling 5 [⟨2, 0, 1, 1⟩, ⟨1, 0, 1, 1⟩] =
      some ⟨[1, 2], [1, 2]⟩) := by
  refine ⟨by decide, by decide, by decide, by decide⟩

/-- C6 (amended): at each decision point the dispatched process minimises
the selection key (burst for `sjf`, priority for `priority_scheduling`),
and among equal keys the one occurring **earliest in the arrival-sorted
working list** wins — earliest arrival, then original input position, not
smallest id.  The choice is still uniquely determined: the selected
element is preceded only by strictly larger keys. -/
theorem C6_selection (key : Process → Int) (l : List Process) (m : Process)
    (h : pyMin key l = some m) :
    (∃ l₁ l₂, l = l₁ ++ m :: l₂ ∧ (∀ x ∈ l₁, key m < key x) ∧
      ∀ x ∈ l, key m ≤ key x) ∧
    ∀ (sorted : List Process) (st : NPState),
      pyMin key (npAvailable sorted st.time st.completed) = some m →
      (npStep key sorted st).order = st.order ++ [m.pid] := by
  refine ⟨pyMin_spec h, ?_⟩
  intro sorted st hmin
  unfold npStep
  rw [hmin]

theorem C6_witness :
    pyMin (fun p => p.burst) [⟨2, 0, 1, 9⟩, ⟨1, 0, 1, 9⟩] =
      some ⟨2, 0, 1, 9⟩ ∧
    (∃ l₁ l₂, ([⟨2, 0, 1, 9⟩, ⟨1, 0, 1, 9⟩] : List Process) =
      l₁ ++ (⟨2, 0, 1, 9⟩ : Process) :: l₂ ∧
      (∀ x ∈ l₁, (1 : Int) < x.burst) ∧
      ∀ x ∈ ([⟨2, 0, 1, 9⟩, ⟨1, 0, 1, 9⟩] : List Process),
        (1 : Int) ≤ x.burst) :=
  ⟨by decide,
    (C6_selection (fun p => p.burst) [⟨2, 0, 1, 9⟩, ⟨1, 0, 1, 9⟩]
      ⟨2, 0, 1, 9⟩ (by decide)).1⟩

/-- C7: in a dispatch iteration of `round_robin` that leaves the running
process with remaining work (`quantum < remaining`), the new queue is the
during-slice admission scan's output followed by the just-run process, and
every process of the batch that has arrived by the end of the slice, is
not completed and is not the running process itself is in that scan's
output — so the re-queued process sits behind every process that became
ready during its slice. -/
theorem C7_requeue_behind (sorted : List Process) (q : Int) (st : RRState)
    (current : Int) (rest : List Int)
    (hq0 : rrAdmit st.dict st.comp st.time [] sorted st.queue =
      current :: rest)
    (hr : q < dictRem st.dict current) :
    (rrStep sorted q st).queue =
      rrAdmit (dictSetRem st.dict current (dictRem st.dict current - q))
        st.comp (st.time + q) [current] sorted rest ++ [current] ∧
    ∀ p ∈ sorted,
      dictArr st.dict p.pid ≤ st.time + q → ¬(p.pid ∈ st.comp) →
      p.pid ≠ current →
      p.pid ∈ rrAdmit (dictSetRem st.dict current
        (dictRem st.dict current - q)) st.comp (st.time + q) [current]
        sorted rest := by
  have hmin : min q (dictRem st.dict current) = q :=
    min_eq_left (le_of_lt hr)
  constructor
  · unfold rrStep
    rw [hq0]
    dsimp only
    rw [hmin, if_pos (by omega : dictRem st.dict current - q > 0)]
  · intro p hp harr hcomp hcur
    refine rrAdmit_mem _ _ _ _ sorted rest p hp ?_ hcomp ?_
    · rwa [dictArr_setRem]
    · simpa using hcur

theorem C7_witness :
    rrAdmit [(1, 0, 5), (2, 1, 3)] [] 0 [] [⟨1, 0, 5, 0⟩, ⟨2, 1, 3, 0⟩] []
      = [1] ∧
    (2 : Int) < dictRem [(1, 0, 5), (2, 1, 3)] 1 ∧
    (rrStep [⟨1, 0, 5, 0⟩, ⟨2, 1, 3, 0⟩] 2
        ⟨0, [], [], [(1, 0, 5), (2, 1, 3)], [], []⟩).queue =
      rrAdmit (dictSetRem [(1, 0, 5), (2, 1, 3)] 1
          (dictRem [(1, 0, 5), (2, 1, 3)] 1 - 2))
        [] (0 + 2) [1] [⟨1, 0, 5, 0⟩, ⟨2, 1, 3, 0⟩] [] ++ [1] :=
  ⟨by decide, by decide,
    (C7_requeue_behind [⟨1, 0, 5, 0⟩, ⟨2, 1, 3, 0⟩] 2
      ⟨0, [], [], [(1, 0, 5), (2, 1, 3)], [], []⟩ 1 []
      (by decide) (by decide)).1⟩

/-- C3: on every valid batch — in particular one whose two processes agree
on arrival, burst and priority and differ only in id — the record-equality
completion tracking of `sjf`/`priority_scheduling` coincides with the
spec's by-id tracking (`sjfById`/`priorityById`, which track completion
strictly by process id), and every pid of the input appears in every
operation's result order at least once. -/
theorem C3_tracking_and_coverage {ps : List Process} {q : Int}
    (hv : ValidBatch ps) (hq : 1 ≤ q) :
    (∀ fuel : Nat, sjf fuel ps = sjfById fuel ps) ∧
    (∀ fuel : Nat, priority_scheduling fuel ps = priorityById fuel ps) ∧
    (∀ p ∈ ps, p.pid ∈ (fcfs ps).order) ∧
    (∃ r, sjf (npFuel ps) ps = some r ∧ ∀ p ∈ ps, p.pid ∈ r.order) ∧
    (∃ r, priority_scheduling (npFuel ps) ps = some r ∧
      ∀ p ∈ ps, p.pid ∈ r.order) ∧
    (∃ r, round_robin (rrFuel ps) ps (some q) = RRAnswer.ok r ∧
      ∀ p ∈ ps, p.pid ∈ r.order) := by
  have hpids := hv.1
  have hsortpids := sortByArrival_pid_nodup hpids
  refine ⟨?_, ?_, ?_, ?_, ?_, ?_⟩
  · intro fuel
    have h := npLoop_eq_byId (fun p => p.burst) (sortByArrival ps) ps.length
      hsortpids fuel 0 [] [] [] (by simp)
    simpa [sjf, sjfById] using h
  · intro fuel
    have h := npLoop_eq_byId (fun p => p.priority) (sortByArrival ps)
      ps.length hsortpids fuel 0 [] [] [] (by simp)
    simpa [priority_scheduling, priorityById] using h
  · intro p hp
    exact (fcfs_order_perm ps).mem_iff.mpr (List.mem_map.mpr ⟨p, hp, rfl⟩)
  · obtain ⟨r, heq, hperm, -, -⟩ := np_run_result (fun p => p.burst) hv
    exact ⟨r, heq, fun p hp =>
      hperm.mem_iff.mpr (List.mem_map.mpr ⟨p, hp, rfl⟩)⟩
  · obtain ⟨r, heq, hperm, -, -⟩ := np_run_result (fun p => p.priority) hv
    exact ⟨r, heq, fun p hp =>
      hperm.mem_iff.mpr (List.mem_map.mpr ⟨p, hp, rfl⟩)⟩
  · obtain ⟨stF, heq, hcnt, -⟩ := rr_run_result hv hq
    refine ⟨⟨stF.finish, stF.order⟩, heq, ?_⟩
    intro p hp
    have hc := (hcnt p hp).2
    have hb : 1 ≤ p.burst := hv.2.2 p hp
    have hpos : 0 < ceilN p.burst q := by
      unfold ceilN
      exact Nat.div_pos (by omega) (by omega)
    rw [← hc] at hpos
    exact List.count_pos_iff.mp hpos

theorem C3_witness :
    ValidBatch [⟨1, 0, 2, 1⟩, ⟨2, 0, 2, 1⟩] ∧ (1 : Int) ≤ 2 ∧
    ∀ p ∈ ([⟨1, 0, 2, 1⟩, ⟨2, 0, 2, 1⟩] : List Process),
      p.pid ∈ (fcfs [⟨1, 0, 2, 1⟩, ⟨2, 0, 2, 1⟩]).order :=
  ⟨by decide, by decide,
    (@C3_tracking_and_coverage [⟨1, 0, 2, 1⟩, ⟨2, 0, 2, 1⟩] 2
      (by decide) (by decide)).2.2.1⟩

/-- C8: on every valid batch `fcfs`, `sjf` and `priority_scheduling` emit
exactly one dispatch event per input process, and `round_robin` with
quantum `q ≥ 1` emits exactly `ceil(burst/q)` events per process, with the
process's final remaining work equal to 0 (so the executed slices sum to
the original burst). -/
theorem C8_event_counts {ps : List Process} {q : Int} (hv : ValidBatch ps)
    (hq : 1 ≤ q) :
    (∀ p ∈ ps, (fcfs ps).order.count p.pid = 1) ∧
    (∃ r, sjf (npFuel ps) ps = some r ∧
      ∀ p ∈ ps, r.order.count p.pid = 1) ∧
    (∃ r, priority_scheduling (npFuel ps) ps = some r ∧
      ∀ p ∈ ps, r.order.count p.pid = 1) ∧
    (∃ stF : RRState,
      round_robin (rrFuel ps) ps (some q) =
        RRAnswer.ok ⟨stF.finish, stF.order⟩ ∧
      ∀ p ∈ ps, stF.order.count p.pid = ceilN p.burst q ∧
        dictRem stF.dict p.pid = 0) := by
  have hpids := hv.1
  have hcount1 : ∀ (l : List Int), l.Perm (ps.map (fun p => p.pid)) →
      ∀ p ∈ ps, l.count p.pid = 1 := by
    intro l hperm p hp
    rw [hperm.count_eq]
    exact List.count_eq_one_of_mem hpids (List.mem_map.mpr ⟨p, hp, rfl⟩)
  refine ⟨hcount1 _ (fcfs_order_perm ps), ?_, ?_, ?_⟩
  · obtain ⟨r, heq, hperm, -, -⟩ := np_run_result (fun p => p.burst) hv
    exact ⟨r, heq, hcount1 _ hperm⟩
  · obtain ⟨r, heq, hperm, -, -⟩ := np_run_result (fun p => p.priority) hv
    exact ⟨r, heq, hcount1 _ hperm⟩
  · obtain ⟨stF, heq, hcnt, -⟩ := rr_run_result hv hq
    exact ⟨stF, heq, fun p hp => ⟨(hcnt p hp).2, (hcnt p hp).1⟩⟩

theorem C8_witness :
    ValidBatch [⟨1, 0, 3, 0⟩, ⟨2, 2, 2, 0⟩] ∧
    ∀ p ∈ ([⟨1, 0, 3, 0⟩, ⟨2, 2, 2, 0⟩] : List Process),
      (fcfs [⟨1, 0, 3, 0⟩, ⟨2, 2, 2, 0⟩]).order.count p.pid = 1 :=
  ⟨by decide,
    (@C8_event_counts [⟨1, 0, 3, 0⟩, ⟨2, 2, 2, 0⟩] 2
      (by decide) (by decide)).1⟩

/-- C9: on every valid batch with (for round robin) a quantum ≥ 1, all four
operations terminate and return a full schedule result: `fcfs` structurally,
and the three loops within an explicit fuel bound — `npFuel` (at most one
iteration per process plus one per idle tick, the idle ticks bounded by the
maximal arrival) and `rrFuel` (at most one iteration per unit of total
burst plus the idle ticks). -/
theorem C9_termination {ps : List Process} {q : Int} (hv : ValidBatch ps)
    (hq : 1 ≤ q) :
    (fcfs ps).order.length = ps.length ∧
    (fcfs ps).finish.length = ps.length ∧
    (∃ r, sjf (npFuel ps) ps = some r ∧ r.order.length = ps.length) ∧
    (∃ r, priority_scheduling (npFuel ps) ps = some r ∧
      r.order.length = ps.length) ∧
    (∃ r, round_robin (rrFuel ps) ps (some q) = RRAnswer.ok r) := by
  refine ⟨fcfs_order_length ps, fcfs_finish_length ps, ?_, ?_, ?_⟩
  · obtain ⟨r, heq, -, -, hlen⟩ := np_run_result (fun p => p.burst) hv
    exact ⟨r, heq, hlen⟩
  · obtain ⟨r, heq, -, -, hlen⟩ := np_run_result (fun p => p.priority) hv
    exact ⟨r, heq, hlen⟩
  · obtain ⟨stF, heq, -, -⟩ := rr_run_result hv hq
    exact ⟨_, heq⟩

theorem C9_witness :
    ValidBatch [⟨3, 4, 2, 0⟩, ⟨1, 0, 1, 2⟩] ∧
    ∃ r, round_robin (rrFuel [⟨3, 4, 2, 0⟩, ⟨1, 0, 1, 2⟩])
      [⟨3, 4, 2, 0⟩, ⟨1, 0, 1, 2⟩] (some 1) = RRAnswer.ok r :=
  ⟨by decide,
    (@C9_termination [⟨3, 4, 2, 0⟩, ⟨1, 0, 1, 2⟩] 1
      (by decide) (by decide)).2.2.2.2⟩

/-- C10: whenever an operation returns a schedule result — any input, any
fuel, any quantum — the `finish` and `order` lists have equal length: each
loop iteration appends to both or to neither. -/
theorem C10_result_lengths (ps : List Process) (fuel : Nat)
    (q : Option Int) :
    (fcfs ps).finish.length = (fcfs ps).order.length ∧
    (∀ r, sjf fuel ps = some r → r.finish.length = r.order.length) ∧
    (∀ r, priority_scheduling fuel ps = some r →
      r.finish.length = r.order.length) ∧
    (∀ r, round_robin fuel ps q = RRAnswer.ok r →
      r.finish.length = r.order.length) := by
  refine ⟨?_, ?_, ?_, ?_⟩
  · rw [fcfs_finish_length, fcfs_order_length]
  · intro r h
    exact npLoop_lengths _ _ _ fuel ⟨0, [], [], []⟩ r rfl h
  · intro r h
    exact npLoop_lengths _ _ _ fuel ⟨0, [], [], []⟩ r rfl h
  · intro r h
    cases q with
    | none =>
        unfold round_robin at h
        cases h
    | some qq =>
        unfold round_robin at h
        dsimp only at h
        cases hloop : rrLoop (sortByArrival ps) qq ps.length fuel
            ⟨0, [], [], initDict ps, [], []⟩ with
        | none =>
            rw [hloop] at h
            cases h
        | some r2 =>
            rw [hloop] at h
            dsimp only at h
            injection h with h2
            rw [← h2]
            exact rrLoop_lengths _ _ _ fuel _ r2 rfl hloop

theorem C10_witness :
    sjf 10 [⟨1, 0, 1, 0⟩] = some ⟨[1], [1]⟩ ∧
    ([1] : List Int).length = ([1] : List Int).length :=
  ⟨by decide,
    (C10_result_lengths [⟨1, 0, 1, 0⟩] 10 (some 1)).2.1 ⟨[1], [1]⟩
      (by decide)⟩
